import Mathlib

/-!
Shallow embedding of the CPM activity-network engine of `project.py`
(class `Graph`).

The Python data model (class docstring, lines 22-26) is
`activities_dict : {activity_name : [{next_activity : duration}, ...]}` —
an insertion-ordered mapping from an activity name to a list of
singleton dictionaries, each holding one outgoing edge
`{successor : duration}`.  We model it as an insertion-ordered
association list; each singleton edge dictionary becomes one
`(successor, duration)` pair.  Iterating `dict.items()` over a
singleton dictionary yields exactly that pair, and Python equality of
two singleton dictionaries is equality of the pairs, so `List.erase`
(remove the first equal element) coincides with Python `list.remove`.

Durations are Python ints, modelled as `Int` (no overflow in Python).
-/

namespace HW1Project

/-- One outgoing edge: the singleton dictionary `{successor : duration}`
of the source, as a `(successor, duration)` pair. -/
abbrev Edge := String × Int

/-- `Graph.activities_dict`: insertion-ordered mapping
`activity_name ↦ outgoing edges`.  Python dictionaries preserve
insertion order and have unique keys; `dict.update` with a fresh key
appends at the end. -/
abbrev ActivitiesDict := List (String × List Edge)

/-- `graph.keys()`: the keys in insertion order. -/
def keysOf (g : ActivitiesDict) : List String :=
  g.map Prod.fst

/-- Python `self.activities_dict[name]` / `.get(name)`: the edge list
stored under `name` (first matching entry; keys are unique).  A missing
key yields `[]` here; in the source, `[name]` would raise `KeyError`
and `.get(name)` would return `None` — both callers below only look up
names previously checked to be keys, so this default is never the
modelled value on the reachable inputs of the claims. -/
def lookupEd (g : ActivitiesDict) (name : String) : List Edge :=
  match g.find? (fun kv => kv.1 == name) with
  | some kv => kv.2
  | none => []

/-- `Graph.add_activity` (project.py lines 89-101).
```
if activity_name != 'end':
    if activity_name not in self.activities_dict:
        self.activities_dict.update({activity_name: next_activities_lst})
    else:
        extended_lst = self.activities_dict.get(activity_name)
        extended_lst.extend(next_activities_lst)
        self.activities_dict.update({activity_name: extended_lst})
```
With the name `'end'` nothing at all happens (not even the success
print).  A new key is appended at the end of the dictionary; an
existing key keeps its position and has the supplied list appended to
its stored list.  No duplicate filtering is performed (the source
carries `TODO check for duplicate dictionaries inside list`), and
supplied successors are never registered as keys. -/
def add_activity (g : ActivitiesDict) (activity_name : String)
    (next_activities_lst : List Edge) : ActivitiesDict :=
  if activity_name ≠ "end" then
    if ¬ ((keysOf g).contains activity_name) then
      g ++ [(activity_name, next_activities_lst)]
    else
      g.map (fun kv =>
        if kv.1 = activity_name then (kv.1, kv.2 ++ next_activities_lst) else kv)
  else g

/-- The inner loop of `Graph.remove_activity` (project.py lines 109-113):
```
for connected_nodes_dict in connected_activities:
    for connected_activities_node, _ in connected_nodes_dict.items():
        if activity_name == connected_activities_node:
            connected_activities.remove(connected_nodes_dict)
```
Python iterates by an internal index that advances by one per step even
when `list.remove` (remove the first equal element) has just shortened
the list, so the element that slides into the removed slot is skipped.
We model the loop step by step: `i` is the iterator's index, and the
fuel starts at the initial length of the list, which bounds the number
of steps (the index grows by one per step and the list never grows). -/
def removal_scan (activity_name : String) : Nat → List Edge → Nat → List Edge
  | 0, lst, _ => lst
  | fuel + 1, lst, i =>
    if h : i < lst.length then
      let d := lst[i]
      if d.1 = activity_name then
        removal_scan activity_name fuel (lst.erase d) (i + 1)
      else
        removal_scan activity_name fuel lst (i + 1)
    else lst

/-- Run the iterate-while-removing loop from the start of a list. -/
def remove_edges_to (activity_name : String) (lst : List Edge) : List Edge :=
  removal_scan activity_name lst.length lst 0

/-- `Graph.remove_activity` (project.py lines 103-113).
`self.activities_dict.pop(activity_name, "Can't remove …")` deletes the
key if present and otherwise returns the default string, which the
caller discards: a missing key raises nothing and prints nothing.
Afterwards every remaining activity's edge list is swept by the
iterate-while-removing loop `removal_scan`. -/
def remove_activity (g : ActivitiesDict) (activity_name : String) : ActivitiesDict :=
  (g.filter (fun kv => !(kv.1 == activity_name))).map
    (fun kv => (kv.1, remove_edges_to activity_name kv.2))

/-- The `non_isolated_activities` set built by
`Graph.find_isolate_activities` (project.py lines 169-179): every
activity with at least one outgoing edge, together with every successor
referenced anywhere.  Only membership in the set matters; we collect
the members in a list. -/
def non_isolated_activities (g : ActivitiesDict) : List String :=
  g.flatMap (fun kv =>
    (if kv.2.length > 0 then [kv.1] else []) ++ kv.2.map Prod.fst)

/-- `Graph.find_isolate_activities` (project.py lines 169-184): the
keys, in order, that are in neither part of the non-isolated set. -/
def find_isolate_activities (g : ActivitiesDict) : List String :=
  (keysOf g).filter (fun n => !((non_isolated_activities g).contains n))

/-- `Graph.find_and_remove_isolate_activities` (project.py lines
115-119): compute the isolated activities once, then remove each in
turn. -/
def find_and_remove_isolate_activities (g : ActivitiesDict) : ActivitiesDict :=
  (find_isolate_activities g).foldl remove_activity g

/-- `Graph.validate_project` (project.py lines 121-124): it first calls
`find_and_remove_isolate_activities` (mutating the network), then
prints the result of `find_all_circles`, which only reads
`activities_dict` (it can raise `KeyError` on a network referencing a
missing key, but never writes the mapping).  The value here is the
`activities_dict` state after the call. -/
def validate_project (g : ActivitiesDict) : ActivitiesDict :=
  find_and_remove_isolate_activities g

/-- The recursion of `Graph.find_all_paths` (project.py lines 186-202):
```
path = path + [start_vertex]
if start_vertex == end_vertex: return [path]
if start_vertex not in graph.keys(): return []
paths = []
for next_nodes_dict in graph[start_vertex]:
    for vertex in next_nodes_dict.keys():
        if vertex not in path:
            for p in self.find_all_paths(vertex, end_vertex, path): paths.append(p)
return paths
```
The recursion terminates because every recursive call extends `path`
by a vertex not yet in it; the fuel is an embedding artifact bounding
the recursion depth (see `find_all_paths_fuel_stable`: any fuel of at
least `2 * g.length + 2` computes the same value, so the wrapper
`find_all_paths` below is the function the source computes). -/
def find_all_paths_aux :
    Nat → ActivitiesDict → String → String → List String → List (List String)
  | 0, _, _, _, _ => []
  | fuel + 1, g, start_vertex, end_vertex, path =>
    let path' := path ++ [start_vertex]
    if start_vertex = end_vertex then [path']
    else if ¬ ((keysOf g).contains start_vertex) then []
    else
      (lookupEd g start_vertex).flatMap (fun ed =>
        if path'.contains ed.1 then []
        else find_all_paths_aux fuel g ed.1 end_vertex path')

/-- `Graph.find_all_paths` with enough fuel for any input. -/
def find_all_paths (g : ActivitiesDict) (start_vertex end_vertex : String)
    (path : List String) : List (List String) :=
  find_all_paths_aux (2 * g.length + 2) g start_vertex end_vertex path

/-- The duration the loop of `Graph.find_critical_path` (project.py
lines 251-267) adds for one step `node → next_node_to_find` of a path:
it walks all of `node`'s edge dictionaries and adds the duration of
every one whose successor is `next_node_to_find` (the `break` only
leaves the items of the current singleton dictionary, not the loop over
the dictionaries). -/
def between_duration (g : ActivitiesDict) (node to_find : String) : Int :=
  (((lookupEd g node).filter (fun ed => ed.1 == to_find)).map Prod.snd).sum

/-- The total the loop of `Graph.find_critical_path` accumulates in
`durations_lst[i]` for one path: for every node of the path other than
`end_node` it adds `between_duration` to the node that follows it.  In
every path returned by `find_all_paths`, `end_node` is exactly the last
node, so the `node != end_node` guard is what stops the loop from
reading past the end of the path. -/
def path_duration (g : ActivitiesDict) (end_node : String) : List String → Int
  | a :: b :: rest =>
    (if a = end_node then 0 else between_duration g a b) +
      path_duration g end_node (b :: rest)
  | _ => 0

/-- `Graph.find_critical_path` (project.py lines 247-275): enumerate
all paths, total each path's durations, take `max(durations_lst)`
(Python raises `ValueError` on an empty list — modelled as `none`),
store it in `self.project_duration` and return
`paths[durations_lst.index(max_duration)]` — the path at the first
index holding the maximum.  We return the pair
`(project duration, returned path)`.  The body also tests
`node in self.essential_activities.keys()` and then reads
`self.essential_activities[node]`, a read with no effect on the result
whenever `essential_activities` is a dictionary, as in the program's
main (with the default `None` the call would raise `AttributeError`
instead); the read is therefore not modelled. -/
def find_critical_path (g : ActivitiesDict) (start_node end_node : String) :
    Option (Int × List String) :=
  let paths := find_all_paths g start_node end_node []
  let durations_lst := paths.map (path_duration g end_node)
  match durations_lst.max? with
  | none => none
  | some max_duration =>
    some (max_duration, paths.getD (durations_lst.indexOf max_duration) [])

/-! ### Fuel adequacy for `find_all_paths`

`muP` is a termination measure for the source recursion: it strictly
drops at every recursive call, and it is bounded by `2 * g.length + 1`,
so the fuel `2 * g.length + 2` used by `find_all_paths` is never
exhausted — any larger fuel computes the same value
(`find_all_paths_fuel_stable`), hence the wrapper is the total function
the source defines. -/

/-- Twice the number of keys not yet on the path, plus one if the
current vertex is still absent from the path. -/
def muP (g : ActivitiesDict) (s : String) (p : List String) : Nat :=
  2 * ((keysOf g).filter (fun k => !(p.contains k))).length +
    (if p.contains s then 1 else 0)

theorem muP_le (g : ActivitiesDict) (s : String) (p : List String) :
    muP g s p ≤ 2 * g.length + 1 := by
  have h1 : ((keysOf g).filter (fun k => !(p.contains k))).length ≤ g.length := by
    calc ((keysOf g).filter (fun k => !(p.contains k))).length
        ≤ (keysOf g).length := (List.filter_sublist _).length_le
      _ = g.length := List.length_map _ _
  unfold muP
  split <;> omega

theorem muP_lt (g : ActivitiesDict) (s v : String) (p : List String)
    (hk : s ∈ keysOf g) (hv : v ∉ p ++ [s]) :
    muP g v (p ++ [s]) < muP g s p := by
  have hfc : (keysOf g).filter (fun k => !((p ++ [s]).contains k)) =
      ((keysOf g).filter (fun k => !(p.contains k))).filter (fun k => !(k == s)) := by
    rw [List.filter_filter]
    refine List.filter_congr (fun k _ => ?_)
    simp only [List.contains, List.elem_eq_mem, List.mem_append, List.mem_singleton,
      beq_iff_eq]
    by_cases h1 : k ∈ p <;> by_cases h2 : k = s <;> simp [h1, h2]
  have hv' : v ∉ p ∧ ¬ v = s := by simpa using hv
  have hδ : (if (p ++ [s]).contains v then 1 else 0) = 0 := by
    simp [hv'.1, hv'.2]
  by_cases hc : s ∈ p
  · -- the current vertex is already on the path: the key filter is unchanged
    have hcc : p.contains s = true := by simpa using hc
    have hflt : ((keysOf g).filter (fun k => !(p.contains k))).filter (fun k => !(k == s)) =
        (keysOf g).filter (fun k => !(p.contains k)) := by
      refine List.filter_eq_self.2 (fun k hkmem => ?_)
      have h2 := (List.mem_filter.1 hkmem).2
      simp only [Bool.not_eq_true', beq_eq_false_iff_ne]
      intro hks
      subst hks
      have : k ∉ p := by simpa using h2
      exact this hc
    unfold muP
    rw [hfc, hflt, hδ, if_pos hcc]
    omega
  · -- fresh vertex: the key `s` leaves the filter, which strictly shrinks
    have hsmem : s ∈ (keysOf g).filter (fun k => !(p.contains k)) := by
      refine List.mem_filter.2 ⟨hk, ?_⟩
      simpa using hc
    have hlt : (((keysOf g).filter (fun k => !(p.contains k))).filter
          (fun k => !(k == s))).length <
        ((keysOf g).filter (fun k => !(p.contains k))).length := by
      rcases Nat.lt_or_ge (((keysOf g).filter (fun k => !(p.contains k))).filter
          (fun k => !(k == s))).length
          ((keysOf g).filter (fun k => !(p.contains k))).length with h | h
      · exact h
      · exfalso
        have hlen : (((keysOf g).filter (fun k => !(p.contains k))).filter
            (fun k => !(k == s))).length =
            ((keysOf g).filter (fun k => !(p.contains k))).length :=
          Nat.le_antisymm (List.filter_sublist _).length_le h
        have heq := (List.filter_sublist _).eq_of_length hlen
        have := List.filter_eq_self.1 heq s hsmem
        simp at this
    have hnc : ¬ (p.contains s = true) := by simpa using hc
    unfold muP
    rw [hfc, hδ, if_neg hnc]
    omega

theorem flatMap_congr_mem {α β : Type} (l : List α) (f h : α → List β)
    (hfg : ∀ a ∈ l, f a = h a) : l.flatMap f = l.flatMap h := by
  induction l with
  | nil => rfl
  | cons a t ih =>
    simp only [List.flatMap_cons]
    rw [hfg a (List.mem_cons_self a t), ih (fun b hb => hfg b (List.mem_cons_of_mem a hb))]

theorem find_all_paths_aux_stable (g : ActivitiesDict) (e : String) :
    ∀ f1 f2 (s : String) (p : List String), muP g s p < f1 → muP g s p < f2 →
      find_all_paths_aux f1 g s e p = find_all_paths_aux f2 g s e p := by
  intro f1
  induction f1 with
  | zero => intro f2 s p h1 _; omega
  | succ n ih =>
    intro f2 s p h1 h2
    match f2 with
    | 0 => omega
    | m + 1 =>
      by_cases hse : s = e
      · simp [find_all_paths_aux, hse]
      · by_cases hk : s ∈ keysOf g
        · have hkc : (keysOf g).contains s = true := by simpa using hk
          simp only [find_all_paths_aux, if_neg hse, if_neg (not_not_intro hkc)]
          refine flatMap_congr_mem _ _ _ (fun ed hed => ?_)
          by_cases hfresh : ed.1 ∈ p ++ [s]
          · simp [hfresh]
          · have hlt := muP_lt g s ed.1 p hk hfresh
            simp only [List.mem_append, List.mem_singleton] at hfresh
            simp [hfresh]
            exact ih m ed.1 (p ++ [s]) (by omega) (by omega)
        · simp [find_all_paths_aux, hse, hk]

theorem find_all_paths_fuel_stable (g : ActivitiesDict) (s e : String)
    (p : List String) (fuel : Nat) (h : 2 * g.length + 2 ≤ fuel) :
    find_all_paths_aux fuel g s e p = find_all_paths g s e p := by
  have hb := muP_le g s p
  exact find_all_paths_aux_stable g e fuel (2 * g.length + 2) s p
    (by omega) (by omega)


/-! ### The value computed by `find_critical_path` -/

theorem indexOf_lt_length_of_mem {α : Type} [BEq α] [LawfulBEq α] {l : List α} {a : α}
    (h : a ∈ l) : l.indexOf a < l.length := by
  induction l with
  | nil => simp at h
  | cons b t ih =>
    rw [List.indexOf_cons]
    cases hba : b == a with
    | true => simp
    | false =>
      have hat : a ∈ t := by
        rcases List.mem_cons.1 h with rfl | h1
        · simp at hba
        · exact h1
      simpa [List.length_cons] using Nat.succ_lt_succ (ih hat)

theorem get_indexOf_self {α : Type} [BEq α] [LawfulBEq α] {l : List α} {a : α}
    (h : l.indexOf a < l.length) : l.get ⟨l.indexOf a, h⟩ = a := by
  have h' : l.findIdx (fun x => x == a) < l.length := h
  have h2 := @List.findIdx_getElem _ (fun x => x == a) l h'
  simpa [List.indexOf, List.get_eq_getElem] using eq_of_beq h2

theorem not_mem_take_indexOf {α : Type} [BEq α] [LawfulBEq α] (l : List α) (a : α) :
    a ∉ l.take (l.indexOf a) := by
  induction l with
  | nil => simp
  | cons b t ih =>
    rw [List.indexOf_cons]
    cases hba : b == a with
    | true => simp
    | false =>
      simp only [cond_false, List.take_succ_cons]
      intro hmem
      rcases List.mem_cons.1 hmem with rfl | hmem2
      · simp at hba
      · exact ih hmem2

theorem find_critical_path_eq (g : ActivitiesDict) (s e : String) (m : Int)
    (hm : ((find_all_paths g s e []).map (path_duration g e)).max? = some m) :
    find_critical_path g s e =
      some (m, (find_all_paths g s e []).getD
        (((find_all_paths g s e []).map (path_duration g e)).indexOf m) []) := by
  simp only [find_critical_path]
  rw [hm]

/-- Everything `find_critical_path` guarantees when at least one path
exists: it returns the maximum of the per-path durations together with
the path at the first index achieving that maximum. -/
theorem find_critical_path_core (g : ActivitiesDict) (s e : String)
    (hne : find_all_paths g s e [] ≠ []) :
    ∃ (d : Int) (i : Nat) (hi : i < (find_all_paths g s e []).length),
      find_critical_path g s e = some (d, (find_all_paths g s e []).get ⟨i, hi⟩) ∧
      (∀ q ∈ find_all_paths g s e [], path_duration g e q ≤ d) ∧
      path_duration g e ((find_all_paths g s e []).get ⟨i, hi⟩) = d ∧
      d ∉ (((find_all_paths g s e []).map (path_duration g e)).take i) := by
  have hdne : (find_all_paths g s e []).map (path_duration g e) ≠ [] := by
    intro h
    apply hne
    have hlen := congrArg List.length h
    simp only [List.length_map, List.length_nil] at hlen
    exact List.length_eq_zero.1 hlen
  obtain ⟨m, hm⟩ :
      ∃ m, ((find_all_paths g s e []).map (path_duration g e)).max? = some m := by
    cases h : ((find_all_paths g s e []).map (path_duration g e)).max? with
    | none => exact absurd (List.max?_eq_none_iff.1 h) hdne
    | some m => exact ⟨m, rfl⟩
  have hmem : m ∈ (find_all_paths g s e []).map (path_duration g e) :=
    List.max?_mem (fun a b => max_choice a b) hm
  have hle : ∀ b ∈ (find_all_paths g s e []).map (path_duration g e), b ≤ m :=
    (List.max?_le_iff (fun a b c => max_le_iff) hm).1 le_rfl
  have hidx := indexOf_lt_length_of_mem hmem
  have hi : ((find_all_paths g s e []).map (path_duration g e)).indexOf m <
      (find_all_paths g s e []).length := by
    simpa using hidx
  refine ⟨m, ((find_all_paths g s e []).map (path_duration g e)).indexOf m, hi,
    ?_, ?_, ?_, ?_⟩
  · rw [find_critical_path_eq g s e m hm]
    have hgd : (find_all_paths g s e []).getD
        (((find_all_paths g s e []).map (path_duration g e)).indexOf m) [] =
        (find_all_paths g s e []).get
          ⟨((find_all_paths g s e []).map (path_duration g e)).indexOf m, hi⟩ := by
      rw [List.getD_eq_getElem?_getD, List.getElem?_eq_getElem hi]
      simp
    rw [hgd]
  · exact fun q hq => hle _ (List.mem_map_of_mem _ hq)
  · have h1 := get_indexOf_self hidx
    simp only [List.get_eq_getElem, List.getElem_map] at h1 ⊢
    exact h1
  · exact not_mem_take_indexOf _ m

/-- C1: for every network and every pair of activities for which
`find_all_paths` enumerates at least one start→end path — in
particular for every acyclic network with a directed start→end path —
`find_critical_path` returns as project duration a value `d` that is
the maximum over all enumerated simple paths of the summed edge
durations along the path, together with an enumerated path achieving
`d`.  (The stored project duration and the returned path are the two
components of the modelled result.) -/
theorem find_critical_path_maximizes (g : ActivitiesDict) (s e : String)
    (hne : find_all_paths g s e [] ≠ []) :
    ∃ (d : Int) (p : List String),
      find_critical_path g s e = some (d, p) ∧
      p ∈ find_all_paths g s e [] ∧
      path_duration g e p = d ∧
      ∀ q ∈ find_all_paths g s e [], path_duration g e q ≤ d := by
  obtain ⟨d, i, hi, hcomp, hle, hdur, _⟩ := find_critical_path_core g s e hne
  exact ⟨d, _, hcomp, List.get_mem _ _ _, hdur, hle⟩

/-- Witness for C1 on the concrete network
`{start: [(a,2)], a: [(end,3)], end: []}`. -/
theorem find_critical_path_maximizes_check :
    find_all_paths [("start", [("a", 2)]), ("a", [("end", 3)]), ("end", [])]
      "start" "end" [] ≠ [] ∧
    ∃ (d : Int) (p : List String),
      find_critical_path [("start", [("a", 2)]), ("a", [("end", 3)]), ("end", [])]
        "start" "end" = some (d, p) ∧
      p ∈ find_all_paths [("start", [("a", 2)]), ("a", [("end", 3)]), ("end", [])]
        "start" "end" [] ∧
      path_duration [("start", [("a", 2)]), ("a", [("end", 3)]), ("end", [])] "end" p = d ∧
      ∀ q ∈ find_all_paths [("start", [("a", 2)]), ("a", [("end", 3)]), ("end", [])]
        "start" "end" [],
        path_duration [("start", [("a", 2)]), ("a", [("end", 3)]), ("end", [])] "end" q ≤ d :=
  ⟨by decide, find_critical_path_maximizes _ "start" "end" (by decide)⟩

/-- C9: whenever `find_all_paths` enumerates at least one path (in
particular when several paths tie for the maximum total duration),
`find_critical_path` returns the path at the first position, in the
enumeration order of `find_all_paths`, whose duration equals the
maximum: the duration at the returned index is the maximum and the
maximum does not occur among the durations before that index. -/
theorem find_critical_path_first_max (g : ActivitiesDict) (s e : String)
    (hne : find_all_paths g s e [] ≠ []) :
    ∃ (d : Int) (i : Nat) (hi : i < (find_all_paths g s e []).length),
      find_critical_path g s e = some (d, (find_all_paths g s e []).get ⟨i, hi⟩) ∧
      path_duration g e ((find_all_paths g s e []).get ⟨i, hi⟩) = d ∧
      (∀ q ∈ find_all_paths g s e [], path_duration g e q ≤ d) ∧
      d ∉ (((find_all_paths g s e []).map (path_duration g e)).take i) := by
  obtain ⟨d, i, hi, hcomp, hle, hdur, htake⟩ := find_critical_path_core g s e hne
  exact ⟨d, i, hi, hcomp, hdur, hle, htake⟩

/-- Witness for C9 on a network with two tied maximum paths
(`start→a→end` and `start→b→end`, both of duration 2). -/
theorem find_critical_path_first_max_check :
    find_all_paths
      [("start", [("a", 1), ("b", 1)]), ("a", [("end", 1)]), ("b", [("end", 1)]),
        ("end", [])] "start" "end" [] ≠ [] ∧
    ∃ (d : Int) (i : Nat)
      (hi : i < (find_all_paths
        [("start", [("a", 1), ("b", 1)]), ("a", [("end", 1)]), ("b", [("end", 1)]),
          ("end", [])] "start" "end" []).length),
      find_critical_path
        [("start", [("a", 1), ("b", 1)]), ("a", [("end", 1)]), ("b", [("end", 1)]),
          ("end", [])] "start" "end" =
        some (d, (find_all_paths
          [("start", [("a", 1), ("b", 1)]), ("a", [("end", 1)]), ("b", [("end", 1)]),
            ("end", [])] "start" "end" []).get ⟨i, hi⟩) ∧
      path_duration
        [("start", [("a", 1), ("b", 1)]), ("a", [("end", 1)]), ("b", [("end", 1)]),
          ("end", [])] "end"
        ((find_all_paths
          [("start", [("a", 1), ("b", 1)]), ("a", [("end", 1)]), ("b", [("end", 1)]),
            ("end", [])] "start" "end" []).get ⟨i, hi⟩) = d ∧
      (∀ q ∈ find_all_paths
        [("start", [("a", 1), ("b", 1)]), ("a", [("end", 1)]), ("b", [("end", 1)]),
          ("end", [])] "start" "end" [],
        path_duration
          [("start", [("a", 1), ("b", 1)]), ("a", [("end", 1)]), ("b", [("end", 1)]),
            ("end", [])] "end" q ≤ d) ∧
      d ∉ (((find_all_paths
        [("start", [("a", 1), ("b", 1)]), ("a", [("end", 1)]), ("b", [("end", 1)]),
          ("end", [])] "start" "end" []).map
        (path_duration
          [("start", [("a", 1), ("b", 1)]), ("a", [("end", 1)]), ("b", [("end", 1)]),
            ("end", [])] "end")).take i) :=
  ⟨by decide, find_critical_path_first_max _ "start" "end" (by decide)⟩

/-! ### The concrete network of the specification (claim C2) -/

/-- The network
`{start:[(A,5),(B,7),(C,6)], A:[(D,3),(E,9)], B:[(D,1),(F,4)],
C:[(F,6),(E,13)], D:[(end,8)], E:[(end,5)], F:[(end,11)], end:[]}`. -/
def specNet : ActivitiesDict :=
  [("start", [("A", 5), ("B", 7), ("C", 6)]),
   ("A", [("D", 3), ("E", 9)]),
   ("B", [("D", 1), ("F", 4)]),
   ("C", [("F", 6), ("E", 13)]),
   ("D", [("end", 8)]),
   ("E", [("end", 5)]),
   ("F", [("end", 11)]),
   ("end", [])]

/-- C2, counterexample: on the concrete network of the specification,
`find_critical_path` does not report project duration 27. -/
theorem specNet_duration_not_27 :
    (find_critical_path specNet "start" "end").map Prod.fst ≠ some 27 := by
  decide

/-- C2, amended: on the concrete network, the six enumerated paths
have durations 16, 19, 16, 22, 23, 24, and `find_critical_path`
reports project duration 24 via the path start→C→E→end. -/
theorem specNet_duration_24 :
    (find_all_paths specNet "start" "end" []).map (path_duration specNet "end") =
      [16, 19, 16, 22, 23, 24] ∧
    find_critical_path specNet "start" "end" =
      some (24, ["start", "C", "E", "end"]) := by
  decide

/-! ### add_activity and remove_activity at concrete inputs
(claims C3, C7, C10) -/

/-- C3: `remove_activity` on a name that is not a key completes
normally — the embedded function is total because `dict.pop` with a
default raises nothing — and, far from leaving the network unchanged,
it still strips every edge pointing to the missing name: removing the
absent `"B"` from `{A: [(B,1)]}` yields `{A: []}`. -/
theorem remove_activity_missing_key_no_error :
    ("B" ∉ keysOf [("A", [("B", 1)])]) ∧
    remove_activity [("A", [("B", 1)])] "B" = [("A", [])] := by
  decide

/-- C7: `add_activity` on an existing name appends the supplied list
without removing exact-duplicate pairs: adding `[(B,2)]` to an activity
whose list is already `[(B,2)]` leaves two copies of the pair. -/
theorem add_activity_keeps_duplicates :
    add_activity [("A", [("B", 2)])] "A" [("B", 2)] = [("A", [("B", 2), ("B", 2)])] ∧
    (lookupEd (add_activity [("A", [("B", 2)])] "A" [("B", 2)]) "A").countP
      (fun ed => ed == ("B", 2)) = 2 := by
  decide

/-- C10: `add_activity` with the name `"end"` leaves the mapping
completely unchanged, whatever the supplied successor list — the guard
`if activity_name != 'end'` silently skips the whole body, so the
designated end activity can never gain outgoing edges this way, and no
error or message is produced (the embedded operation is total and
returns the unchanged mapping). -/
theorem add_activity_end_noop (g : ActivitiesDict) (lst : List Edge) :
    add_activity g "end" lst = g := by
  simp [add_activity]

/-! ### Absent start vertex and unreachable end vertex (claim C8) -/

/-- One directed step of the network as `find_all_paths` walks it: an
edge can be followed from `a` only when `a` is a key, and it leads to a
successor stored in `a`'s edge list. -/
def edgeRel (g : ActivitiesDict) (a b : String) : Prop :=
  a ∈ keysOf g ∧ b ∈ (lookupEd g a).map Prod.fst

/-- Soundness of the enumeration: a nonempty result means the end
vertex is reachable from the start vertex along the edges of `g`. -/
theorem find_all_paths_aux_sound (g : ActivitiesDict) (e : String) :
    ∀ (fuel : Nat) (s : String) (p : List String),
      find_all_paths_aux fuel g s e p ≠ [] →
      Relation.ReflTransGen (edgeRel g) s e := by
  intro fuel
  induction fuel with
  | zero => intro s p h; simp [find_all_paths_aux] at h
  | succ n ih =>
    intro s p h
    by_cases hse : s = e
    · exact hse ▸ Relation.ReflTransGen.refl
    · by_cases hk : s ∈ keysOf g
      · have hkc : (keysOf g).contains s = true := by simpa using hk
        simp only [find_all_paths_aux, if_neg hse, if_neg (not_not_intro hkc)] at h
        rw [Ne, List.flatMap_eq_nil_iff] at h
        push_neg at h
        obtain ⟨ed, hed, hinner⟩ := h
        have hrec : find_all_paths_aux n g ed.1 e (p ++ [s]) ≠ [] := by
          intro hnil
          apply hinner
          by_cases hfresh : (p ++ [s]).contains ed.1
          · rw [if_pos hfresh]
          · rw [if_neg hfresh]
            exact hnil
        have hstep : edgeRel g s ed.1 := ⟨hk, List.mem_map_of_mem _ hed⟩
        exact Relation.ReflTransGen.head hstep (ih ed.1 (p ++ [s]) hrec)
      · simp [find_all_paths_aux, hse, hk] at h

/-- C8, amended: a start vertex absent from the network produces the
empty sequence, not an error (unless start = end, in which case the
single-vertex path is returned without the network ever being
consulted); an end vertex unreachable from the start also produces the
empty sequence.  No case reports an error: the modelled function is
total, mirroring the source, whose guard `return []` precedes any use
of the network. -/
theorem find_all_paths_empty_cases (g : ActivitiesDict) (s e : String)
    (p : List String) :
    (s ∉ keysOf g → s ≠ e → find_all_paths g s e p = []) ∧
    (find_all_paths g s s p = [p ++ [s]]) ∧
    (¬ Relation.ReflTransGen (edgeRel g) s e → find_all_paths g s e [] = []) := by
  have hfuel : find_all_paths g s e p =
      find_all_paths_aux (2 * g.length + 1 + 1) g s e p := rfl
  have hfuel2 : find_all_paths g s s p =
      find_all_paths_aux (2 * g.length + 1 + 1) g s s p := rfl
  refine ⟨?_, ?_, ?_⟩
  · intro hk hne
    rw [hfuel]
    simp [find_all_paths_aux, hne, hk]
  · rw [hfuel2]
    simp [find_all_paths_aux]
  · intro hnr
    by_contra hne
    exact hnr (find_all_paths_aux_sound g e _ s [] hne)

/-- Witness for C8 on the network `{A: []}` with the absent start
vertex `X`. -/
theorem find_all_paths_empty_cases_check :
    ("X" ∉ keysOf [("A", ([] : List Edge))] ∧ "X" ≠ "end" ∧
      find_all_paths [("A", [])] "X" "end" [] = []) ∧
    find_all_paths [("A", [])] "X" "X" [] = [["X"]] ∧
    (¬ Relation.ReflTransGen (edgeRel [("A", ([] : List Edge))]) "X" "end" ∧
      find_all_paths [("A", [])] "X" "end" [] = []) := by
  have h := find_all_paths_empty_cases [("A", [])] "X" "end" []
  have hnr : ¬ Relation.ReflTransGen (edgeRel [("A", ([] : List Edge))]) "X" "end" := by
    intro hr
    rcases Relation.ReflTransGen.cases_head hr with heq | ⟨b, hb, _⟩
    · exact (by decide : ("X" : String) ≠ "end") heq
    · rcases hb with ⟨hk, _⟩
      revert hk
      decide
  exact ⟨⟨by decide, by decide, h.1 (by decide) (by decide)⟩, h.2.1, hnr, h.2.2 hnr⟩

/-- C8, counterexample: with the start vertex `Q` absent from the
network `{A: [(B,1)]}`, `find_all_paths` raises nothing: it returns the
empty list, and when start = end it even returns a nonempty result
without touching the network. -/
theorem find_all_paths_absent_start_returns :
    find_all_paths [("A", [("B", 1)])] "Q" "end" [] = [] ∧
    find_all_paths [("A", [("B", 1)])] "Q" "Q" [] = [["Q"]] := by
  decide

/-! ### validate_project prunes isolated activities (claim C5) -/

/-- C5, counterexample: `validate_project` mutates the network: on
`{A: []}` the activity `A` is isolated (no outgoing edges, never
referenced), and validation removes it. -/
theorem validate_project_prunes_isolated :
    validate_project [("A", [])] = [] ∧
    ([("A", ([] : List Edge))] : ActivitiesDict) ≠ [] := by
  decide

/-- C5, amended: `validate_project` automatically removes every
isolated activity (pruning is a side effect of validation, not a
separate caller decision); only when no activity is isolated is the
mapping left unchanged. -/
theorem validate_project_no_isolates_id (g : ActivitiesDict)
    (h : find_isolate_activities g = []) : validate_project g = g := by
  unfold validate_project find_and_remove_isolate_activities
  rw [h]
  rfl

/-- Witness for C5 on `{A: [(B,1)], B: []}`, which has no isolated
activity. -/
theorem validate_project_no_isolates_id_check :
    find_isolate_activities [("A", [("B", 1)]), ("B", [])] = [] ∧
    validate_project [("A", [("B", 1)]), ("B", [])] = [("A", [("B", 1)]), ("B", [])] :=
  ⟨by decide, validate_project_no_isolates_id _ (by decide)⟩

/-! ### The closure invariant (claim C4) -/

/-- The closure invariant of the specification: every successor
referenced in any activity's edge list is itself a key of the
mapping. -/
def closed_dict (g : ActivitiesDict) : Prop :=
  ∀ kv ∈ g, ∀ ed ∈ kv.2, ed.1 ∈ keysOf g

instance closed_dict_decidable (g : ActivitiesDict) : Decidable (closed_dict g) := by
  unfold closed_dict
  infer_instance

/-- C4, counterexample: `add_activity` registers no successors.
Starting from the empty (closed) network, `add_activity('A', [(B,1)])`
leaves `B` referenced but not a key, so the closure invariant is
broken by a mutating operation. -/
theorem add_activity_breaks_closure :
    closed_dict ([] : ActivitiesDict) ∧
    ¬ closed_dict (add_activity [] "A" [("B", 1)]) ∧
    "B" ∉ keysOf (add_activity [] "A" [("B", 1)]) := by
  decide

/-- C4, amended: `add_activity(name, successors)` does not implicitly
register successors; it preserves the closure invariant exactly in the
cases where no registration would be needed — when every supplied
successor is already a key or equals `name` (the case name = 'end',
where nothing happens at all, is covered as well). -/
theorem add_activity_closure_conditional (g : ActivitiesDict) (name : String)
    (lst : List Edge) (hg : closed_dict g)
    (hs : ∀ ed ∈ lst, ed.1 = name ∨ ed.1 ∈ keysOf g) :
    closed_dict (add_activity g name lst) := by
  by_cases hend : name = "end"
  · have : add_activity g name lst = g := by simp [add_activity, hend]
    rw [this]
    exact hg
  · have hend' : name ≠ "end" := hend
    by_cases hk : name ∈ keysOf g
    · -- the extend branch: the key set is unchanged
      have hkc : (keysOf g).contains name = true := by simpa using hk
      have hbr : add_activity g name lst =
          g.map (fun kv =>
            if kv.1 = name then (kv.1, kv.2 ++ lst) else kv) := by
        unfold add_activity
        rw [if_pos hend', if_neg (not_not_intro hkc)]
      rw [hbr]
      have hkeys : keysOf (g.map (fun kv =>
          if kv.1 = name then (kv.1, kv.2 ++ lst) else kv)) = keysOf g := by
        unfold keysOf
        rw [List.map_map]
        refine List.map_congr_left (fun kv _ => ?_)
        by_cases h0 : kv.1 = name <;> simp [h0]
      intro kv hkv ed hed
      rw [hkeys]
      obtain ⟨kv0, hkv0, hkveq⟩ := List.mem_map.1 hkv
      by_cases h0 : kv0.1 = name
      · rw [if_pos h0] at hkveq
        rw [← hkveq] at hed
        rcases List.mem_append.1 hed with h1 | h1
        · exact hg kv0 hkv0 ed h1
        · rcases hs ed h1 with h2 | h2
          · rw [h2]
            exact hk
          · exact h2
      · rw [if_neg h0] at hkveq
        rw [← hkveq] at hed
        exact hg kv0 hkv0 ed hed
    · -- the insert branch: the new key is appended at the end
      have hkc : ¬ ((keysOf g).contains name = true) := by simpa using hk
      have hbr : add_activity g name lst = g ++ [(name, lst)] := by
        unfold add_activity
        rw [if_pos hend', if_pos hkc]
      rw [hbr]
      have hkeys : keysOf (g ++ [(name, lst)]) = keysOf g ++ [name] := by
        simp [keysOf]
      intro kv hkv ed hed
      rw [hkeys]
      rcases List.mem_append.1 hkv with h | h
      · exact List.mem_append.2 (Or.inl (hg kv h ed hed))
      · have hkv' : kv = (name, lst) := by simpa using h
        rw [hkv'] at hed
        rcases hs ed hed with h1 | h1
        · exact List.mem_append.2 (Or.inr (by simp [h1]))
        · exact List.mem_append.2 (Or.inl h1)

/-- Witness for C4 on `{A: []}` with `add_activity('A', [(A,5)])`,
whose supplied successor equals the added name. -/
theorem add_activity_closure_conditional_check :
    closed_dict [("A", ([] : List Edge))] ∧
    (∀ ed ∈ [(("A" : String), (5 : Int))],
      ed.1 = "A" ∨ ed.1 ∈ keysOf [("A", ([] : List Edge))]) ∧
    closed_dict (add_activity [("A", [])] "A" [("A", 5)]) :=
  ⟨by decide, by decide,
    add_activity_closure_conditional _ "A" _ (by decide) (by decide)⟩

/-! ### Edge removal by `remove_activity` (claim C6) -/

/-- If no element at or after the iterator's position matches, the scan
changes nothing. -/
theorem removal_scan_no_match (name : String) :
    ∀ (fuel : Nat) (lst : List Edge) (i : Nat),
      (∀ ed ∈ lst.drop i, ed.1 ≠ name) → removal_scan name fuel lst i = lst := by
  intro fuel
  induction fuel with
  | zero => intro lst i _; rfl
  | succ n ih =>
    intro lst i h
    unfold removal_scan
    split
    · next hlt =>
      have hget : lst[i] ∈ lst.drop i := by
        rw [List.drop_eq_getElem_cons hlt]
        exact List.mem_cons_self _ _
      have hne := h _ hget
      rw [if_neg hne]
      refine ih lst (i + 1) (fun ed hed => h ed ?_)
      exact List.drop_subset_drop_left lst (Nat.le_succ i) hed
    · rfl

/-- When the list splits as `pre ++ d :: post` with `d` the only
matching element and the iterator has not yet passed `d`, the scan
removes exactly `d`. -/
theorem removal_scan_single_match (name : String) :
    ∀ (fuel : Nat) (pre : List Edge) (d : Edge) (post : List Edge) (i : Nat),
      i ≤ pre.length → pre.length + 1 + post.length - i ≤ fuel →
      d.1 = name →
      (∀ ed ∈ pre, ed.1 ≠ name) → (∀ ed ∈ post, ed.1 ≠ name) →
      removal_scan name fuel (pre ++ d :: post) i = pre ++ post := by
  intro fuel
  induction fuel with
  | zero => intro pre d post i hi hfuel _ _ _; omega
  | succ n ih =>
    intro pre d post i hi hfuel hd hpre hpost
    have hlen : (pre ++ d :: post).length = pre.length + 1 + post.length := by
      simp
      omega
    have hlt : i < (pre ++ d :: post).length := by omega
    unfold removal_scan
    rw [dif_pos hlt]
    rcases Nat.lt_or_ge i pre.length with hcase | hcase
    · -- still inside `pre`: the element does not match
      have hgetpre : (pre ++ d :: post)[i] = pre[i] :=
        List.getElem_append_left hcase
      have hmem : pre[i] ∈ pre := List.getElem_mem hcase
      have hne : ((pre ++ d :: post)[i]).1 ≠ name := by
        rw [hgetpre]
        exact hpre _ hmem
      rw [if_neg hne]
      exact ih pre d post (i + 1) hcase (by omega) hd hpre hpost
    · -- the iterator sits exactly on `d`
      have hieq : i = pre.length := by omega
      have hgetd : (pre ++ d :: post)[i] = d := by
        rw [List.getElem_append_right hcase]
        subst hieq
        simp
      rw [hgetd, if_pos hd]
      have hdne : d ∉ pre := fun hmem => hpre d hmem hd
      have herase : (pre ++ d :: post).erase d = pre ++ post := by
        rw [List.erase_append_right _ hdne, List.erase_cons_head]
      rw [herase]
      refine removal_scan_no_match name n (pre ++ post) (i + 1) ?_
      intro ed hed
      rcases List.mem_append.1 (List.drop_subset _ _ hed) with h1 | h1
      · exact hpre ed h1
      · exact hpost ed h1

/-- A list whose `countP` is one splits around its unique matching
element. -/
theorem countP_eq_one_split {α : Type} (q : α → Bool) :
    ∀ (l : List α), l.countP q = 1 →
      ∃ pre x post, l = pre ++ x :: post ∧ q x = true ∧
        (∀ a ∈ pre, q a = false) ∧ (∀ a ∈ post, q a = false) := by
  intro l
  induction l with
  | nil => intro h; simp at h
  | cons a t ih =>
    intro h
    by_cases hqa : q a = true
    · have ht : t.countP q = 0 := by
        rw [List.countP_cons_of_pos _ _ hqa] at h
        omega
      refine ⟨[], a, t, by simp, hqa, by simp, ?_⟩
      intro b hb
      have := List.countP_eq_zero.1 ht b hb
      simpa using this
    · have hfa : q a = false := by simpa using hqa
      rw [List.countP_cons_of_neg _ _ (by simp [hfa])] at h
      obtain ⟨pre, x, post, heq, hx, hpre, hpost⟩ := ih h
      refine ⟨a :: pre, x, post, by simp [heq], hx, ?_, hpost⟩
      intro b hb
      rcases List.mem_cons.1 hb with rfl | hb2
      · exact hfa
      · exact hpre b hb2

/-- With at most one matching element, the iterate-while-removing loop
behaves like a filter: the skip-after-removal effect never fires. -/
theorem remove_edges_to_of_count_le_one (name : String) (lst : List Edge)
    (h : lst.countP (fun ed => ed.1 == name) ≤ 1) :
    remove_edges_to name lst = lst.filter (fun ed => !(ed.1 == name)) := by
  unfold remove_edges_to
  rcases Nat.lt_or_ge (lst.countP (fun ed => ed.1 == name)) 1 with h0 | h1
  · have h0' : lst.countP (fun ed => ed.1 == name) = 0 := by omega
    have hall := List.countP_eq_zero.1 h0'
    have hnm : ∀ ed ∈ lst.drop 0, ed.1 ≠ name := by
      intro ed hed
      have := hall ed (by simpa using hed)
      simpa using this
    rw [removal_scan_no_match name lst.length lst 0 hnm]
    symm
    rw [List.filter_eq_self]
    intro a ha
    have := hall a ha
    simpa using this
  · have h1' : lst.countP (fun ed => ed.1 == name) = 1 := by omega
    obtain ⟨pre, d, post, heq, hd, hpre, hpost⟩ := countP_eq_one_split _ lst h1'
    subst heq
    have hdname : d.1 = name := by simpa using hd
    have hprename : ∀ ed ∈ pre, ed.1 ≠ name := fun ed hed => by
      simpa using hpre ed hed
    have hpostname : ∀ ed ∈ post, ed.1 ≠ name := fun ed hed => by
      simpa using hpost ed hed
    rw [removal_scan_single_match name (pre ++ d :: post).length pre d post 0
      (Nat.zero_le _) (by simp; omega) hdname hprename hpostname]
    rw [List.filter_append, List.filter_cons_of_neg (by simp [hdname]),
      List.filter_eq_self.2 (fun a ha => by simpa using hprename a ha),
      List.filter_eq_self.2 (fun a ha => by simpa using hpostname a ha)]

/-- C6, counterexample: with two consecutive edges to the removed name
in the same list, the iterate-while-removing loop of `remove_activity`
skips the second one: removing `X` from
`{A: [(X,1),(X,2),(Y,3)], X: [], Y: []}` leaves the edge `(X,2)` in
`A`'s list, so an edge whose successor is the removed name survives. -/
theorem remove_activity_duplicate_edge_survives :
    remove_activity [("A", [("X", 1), ("X", 2), ("Y", 3)]), ("X", []), ("Y", [])] "X" =
      [("A", [("X", 2), ("Y", 3)]), ("Y", [])] ∧
    ∃ kv ∈ remove_activity
      [("A", [("X", 1), ("X", 2), ("Y", 3)]), ("X", []), ("Y", [])] "X",
      ∃ ed ∈ kv.2, ed.1 = "X" := by
  decide

/-- C6, amended: `remove_activity(name)` deletes `name` from the keys,
and — provided no activity's successor list holds more than one edge to
`name` — also removes every edge to `name` from every remaining list
(the result is exactly the key-and-edge filter of the network); with
several edges to `name` in one list, a later duplicate can survive the
removal pass. -/
theorem remove_activity_single_edge_complete (g : ActivitiesDict) (name : String)
    (hdup : ∀ kv ∈ g, kv.2.countP (fun ed => ed.1 == name) ≤ 1) :
    remove_activity g name =
      (g.filter (fun kv => !(kv.1 == name))).map
        (fun kv => (kv.1, kv.2.filter (fun ed => !(ed.1 == name)))) ∧
    ∀ kv ∈ remove_activity g name, kv.1 ≠ name ∧ ∀ ed ∈ kv.2, ed.1 ≠ name := by
  have hchar : remove_activity g name =
      (g.filter (fun kv => !(kv.1 == name))).map
        (fun kv => (kv.1, kv.2.filter (fun ed => !(ed.1 == name)))) := by
    unfold remove_activity
    refine List.map_congr_left (fun kv hkv => ?_)
    have hmem : kv ∈ g := (List.mem_filter.1 hkv).1
    rw [remove_edges_to_of_count_le_one name kv.2 (hdup kv hmem)]
  refine ⟨hchar, ?_⟩
  rw [hchar]
  intro kv hkv
  obtain ⟨kv0, hkv0, hkveq⟩ := List.mem_map.1 hkv
  constructor
  · rw [← hkveq]
    have := (List.mem_filter.1 hkv0).2
    simpa using this
  · intro ed hed
    rw [← hkveq] at hed
    have := (List.mem_filter.1 hed).2
    simpa using this

/-- Witness for C6 on `{A: [(X,1),(Y,2)], X: []}`, where each list has
at most one edge to `X`. -/
theorem remove_activity_single_edge_complete_check :
    (∀ kv ∈ [("A", [("X", 1), ("Y", 2)]), ("X", ([] : List Edge))],
      kv.2.countP (fun ed => ed.1 == "X") ≤ 1) ∧
    (remove_activity [("A", [("X", 1), ("Y", 2)]), ("X", [])] "X" =
      ([("A", [("X", 1), ("Y", 2)]), ("X", [])].filter
        (fun kv => !(kv.1 == "X"))).map
        (fun kv => (kv.1, kv.2.filter (fun ed => !(ed.1 == "X")))) ∧
      ∀ kv ∈ remove_activity [("A", [("X", 1), ("Y", 2)]), ("X", [])] "X",
        kv.1 ≠ "X" ∧ ∀ ed ∈ kv.2, ed.1 ≠ "X") :=
  ⟨by decide, remove_activity_single_edge_complete _ "X" (by decide)⟩

end HW1Project
